import Mathlib

/-
Verification of the goleveldb bindings (a thin Go wrapper around the LevelDB
storage engine) against their specification.

The Go wrapper code (nil-slice handling, default-option substitution, error
conversion, argument marshalling) is embedded directly from the source files
db.go, batch.go, writeoptions.go and readoptions.go.  The storage engine
itself (the C functions leveldb_put, leveldb_get, leveldb_delete,
leveldb_write, leveldb_create_snapshot, leveldb_compact_range, leveldb_open,
leveldb_approximate_sizes) lives in the external C library and is not part of
the repository's sources; those parts are modelled from the specification's
data model: an ordered log of (key, value, sequence-number, kind) entries
with a monotonically increasing sequence counter, last-write-wins reads, and
snapshot reads bounded by a sequence number.
-/

set_option linter.unusedVariables false

namespace GoLevelDB

/-- A Go byte slice as it appears at the public API: either the nil slice or
a (possibly empty) list of bytes.  `len` on a nil slice is 0, exactly as in
Go. -/
inductive GoSlice where
  | nil
  | mk (data : List UInt8)
  deriving DecidableEq

/-- Go `len` of a byte slice. -/
def GoSlice.len : GoSlice → Nat
  | .nil => 0
  | .mk d => d.length

/-- The byte sequence a slice denotes once marshalled across the C boundary:
the wrapper passes a valid sentinel pointer together with length 0 whenever
`len == 0` (db.go: emptyKeyPtr / emptyValuePtr), so both the nil slice and an
empty slice arrive at the engine as the length-0 byte sequence. -/
def GoSlice.bytes : GoSlice → List UInt8
  | .nil => []
  | .mk d => d

/-- Modelled from the spec: kind of a committed entry, Put or Delete. -/
inductive Kind where
  | put
  | del
  deriving DecidableEq

/-- Modelled from the spec: an Entry is a (key, value, sequence-number, kind)
tuple; the sequence number is assigned at write-commit time. -/
structure Entry where
  key : List UInt8
  value : List UInt8
  seq : Nat
  kind : Kind
  deriving DecidableEq

/-- Modelled from the spec: the engine state behind the opaque
`leveldb_t` handle — the ordered log of committed entries together with the
last committed sequence number. -/
structure Engine where
  entries : List Entry
  lastSeq : Nat
  deriving DecidableEq

/-- Well-formedness of an engine state: every committed entry carries a
sequence number no larger than the engine's last committed sequence number.
Freshly opened engines satisfy this and every operation preserves it. -/
def Engine.WF (eng : Engine) : Prop :=
  ∀ x ∈ eng.entries, x.seq ≤ eng.lastSeq

/-- Modelled from the spec: the most recent entry for key `k` among those
with sequence number at most `s` (entries are kept in commit order, so the
last matching entry in list order is the most recent one). -/
def findLastAt (es : List Entry) (k : List UInt8) (s : Nat) : Option Entry :=
  match es with
  | [] => none
  | x :: rest =>
    match findLastAt rest k s with
    | some y => some y
    | none => if x.key = k ∧ x.seq ≤ s then some x else none

/-- The most recent entry for key `k` with no sequence bound. -/
def findLast (es : List Entry) (k : List UInt8) : Option Entry :=
  match es with
  | [] => none
  | x :: rest =>
    match findLast rest k with
    | some y => some y
    | none => if x.key = k then some x else none

/-- The value a located entry yields to a reader: a Put entry yields its
value, a Delete tombstone (or no entry at all) yields absence. -/
def valOf : Option Entry → Option (List UInt8)
  | some e =>
    match e.kind with
    | .put => some e.value
    | .del => none
  | none => none

/-- Modelled from the spec: point read at sequence bound `s` — the most
recent value for `k` visible at `s`, or absence. -/
def Engine.getAt (eng : Engine) (s : Nat) (k : List UInt8) : Option (List UInt8) :=
  valOf (findLastAt eng.entries k s)

/-- Modelled from the spec: committing a single Put assigns the next
sequence number and appends the entry. -/
def Engine.put (eng : Engine) (k v : List UInt8) : Engine :=
  { entries := eng.entries ++ [{ key := k, value := v, seq := eng.lastSeq + 1, kind := .put }],
    lastSeq := eng.lastSeq + 1 }

/-- Modelled from the spec: committing a single Delete appends a tombstone
with the next sequence number; deleting an absent key is not an error. -/
def Engine.del (eng : Engine) (k : List UInt8) : Engine :=
  { entries := eng.entries ++ [{ key := k, value := [], seq := eng.lastSeq + 1, kind := .del }],
    lastSeq := eng.lastSeq + 1 }

/-- A buffered batch operation (batch.go appends these to the underlying
`leveldb_writebatch_t`, already marshalled to byte sequences). -/
inductive BatchOp where
  | put (key value : List UInt8)
  | del (key : List UInt8)
  deriving DecidableEq

/-- The key a batch operation touches. -/
def BatchOp.key : BatchOp → List UInt8
  | .put k _ => k
  | .del k => k

/-- The read result a batch operation leaves behind for its key: a Put
leaves its value, a Delete leaves absence. -/
def BatchOp.result : BatchOp → Option (List UInt8)
  | .put _ v => some v
  | .del _ => none

/-- Modelled from the spec: committing one batch entry. -/
def applyBatchOp (eng : Engine) : BatchOp → Engine
  | .put k v => eng.put k v
  | .del k => eng.del k

/-- Modelled from the spec: `leveldb_write` commits all entries of a batch
in append order, assigning a contiguous range of sequence numbers. -/
def Engine.write (eng : Engine) (ops : List BatchOp) : Engine :=
  ops.foldl applyBatchOp eng

/-- The last operation in a batch that touches key `k`, if any. -/
def lastOpFor (k : List UInt8) : List BatchOp → Option BatchOp
  | [] => none
  | op :: ops =>
    match lastOpFor k ops with
    | some o => some o
    | none => if op.key = k then some op else none

/-- Open-time configuration (options.go is not under src/; the fields used
by the Open contract are modelled from the spec). -/
structure Options where
  createIfMissing : Bool
  errorIfExists : Bool
  paranoidChecks : Bool
  deriving DecidableEq

/-- NewOptions allocates an Options with the engine defaults. -/
def NewOptions : Options :=
  { createIfMissing := false, errorIfExists := false, paranoidChecks := false }

/-- A Snapshot handle: an immutable capture of the maximum committed
sequence number at creation time (spec data model). -/
structure Snapshot where
  seq : Nat
  deriving DecidableEq

/-- Options that control read operations (readoptions.go). The `snapshot`
field holds the sequence bound of a bound snapshot, or none for an implicit
snapshot of the current state. -/
structure ReadOptions where
  verifyChecksums : Bool
  fillCache : Bool
  snapshot : Option Nat
  deriving DecidableEq

/-- NewReadOptions allocates a ReadOptions object with the defaults. -/
def NewReadOptions : ReadOptions :=
  { verifyChecksums := false, fillCache := true, snapshot := none }

/-- ReadOptions.SetVerifyChecksums (readoptions.go). -/
def ReadOptions.SetVerifyChecksums (ro : ReadOptions) (b : Bool) : ReadOptions :=
  { ro with verifyChecksums := b }

/-- ReadOptions.SetFillCache (readoptions.go). -/
def ReadOptions.SetFillCache (ro : ReadOptions) (b : Bool) : ReadOptions :=
  { ro with fillCache := b }

/-- ReadOptions.SetSnapshot (readoptions.go): a nil snapshot clears the
bound; a non-nil snapshot binds reads to its sequence number. -/
def ReadOptions.SetSnapshot (ro : ReadOptions) (snap : Option Snapshot) : ReadOptions :=
  match snap with
  | none => { ro with snapshot := none }
  | some s => { ro with snapshot := some s.seq }

/-- Options that control write operations (writeoptions.go). -/
structure WriteOptions where
  sync : Bool
  deriving DecidableEq

/-- NewWriteOptions allocates a WriteOptions object with the defaults. -/
def NewWriteOptions : WriteOptions :=
  { sync := false }

/-- WriteOptions.SetSync (writeoptions.go); affects only crash durability,
which is outside the logical model. -/
def WriteOptions.SetSync (wo : WriteOptions) (b : Bool) : WriteOptions :=
  { wo with sync := b }

/-- WriteBatch holds a collection of updates to apply atomically to a DB
(batch.go); the updates are applied in the order in which they are added. -/
structure WriteBatch where
  ops : List BatchOp
  deriving DecidableEq

/-- NewWriteBatch creates an empty WriteBatch (batch.go). -/
def NewWriteBatch : WriteBatch := ⟨[]⟩

/-- WriteBatch.Put (batch.go): appends a put entry; nil and empty slices are
both marshalled as the length-0 byte sequence via the sentinel pointer. -/
def WriteBatch.Put (w : WriteBatch) (key value : GoSlice) : WriteBatch :=
  ⟨w.ops ++ [BatchOp.put key.bytes value.bytes]⟩

/-- WriteBatch.Delete (batch.go): appends a delete entry. -/
def WriteBatch.Delete (w : WriteBatch) (key : GoSlice) : WriteBatch :=
  ⟨w.ops ++ [BatchOp.del key.bytes]⟩

/-- WriteBatch.Clear (batch.go): discards all buffered entries. -/
def WriteBatch.Clear (w : WriteBatch) : WriteBatch := ⟨[]⟩

/-- Errors returned by DB point operations.  `notFound` is the sentinel
ErrNotFound of db.go; other engine failures would surface as a wrapped
message (the modelled engine is fault-free, so they do not arise). -/
inductive DBError where
  | notFound
  | ioFailure (msg : String)
  deriving DecidableEq

/-- The DB handle (db.go): the engine state plus the default read and write
options stored at open time. -/
structure DB where
  engine : Engine
  defaultROpt : ReadOptions
  defaultWOpt : WriteOptions
  deriving DecidableEq

/-- The read options a DB method actually uses: db.go substitutes
`db.defaultROpt` when the caller passes nil. -/
def DB.effROpt (db : DB) (ro : Option ReadOptions) : ReadOptions :=
  match ro with
  | none => db.defaultROpt
  | some r => r

/-- The write options a DB method actually uses: db.go substitutes
`db.defaultWOpt` when the caller passes nil. -/
def DB.effWOpt (db : DB) (wo : Option WriteOptions) : WriteOptions :=
  match wo with
  | none => db.defaultWOpt
  | some w => w

/-- The sequence bound a read observes: the bound snapshot's sequence if the
read options carry one, else the current last committed sequence. -/
def readBound (db : DB) (r : ReadOptions) : Nat :=
  match r.snapshot with
  | some s => s
  | none => db.engine.lastSeq

/-- DB.Put (db.go): marshals key and value (length-0 via sentinel pointer),
substitutes the default write options on nil, and commits one put through
the engine.  Returns the new state and the Go error value. -/
def DB.Put (db : DB) (wo : Option WriteOptions) (key value : GoSlice) : DB × Option DBError :=
  ({ db with engine := db.engine.put key.bytes value.bytes }, none)

/-- DB.Get (db.go): marshals the key, substitutes the default read options
on nil, reads at the options' sequence bound; a missing key yields
ErrNotFound, a found value is copied back as a non-nil byte slice. -/
def DB.Get (db : DB) (ro : Option ReadOptions) (key : GoSlice) : Except DBError (List UInt8) :=
  match db.engine.getAt (readBound db (db.effROpt ro)) key.bytes with
  | some v => Except.ok v
  | none => Except.error DBError.notFound

/-- DB.Delete (db.go): marshals the key, substitutes the default write
options on nil, and commits one delete; absent keys are not an error. -/
def DB.Delete (db : DB) (wo : Option WriteOptions) (key : GoSlice) : DB × Option DBError :=
  ({ db with engine := db.engine.del key.bytes }, none)

/-- DB.Write (db.go): commits all entries of the batch atomically in append
order. -/
def DB.Write (db : DB) (wo : Option WriteOptions) (wb : WriteBatch) : DB × Option DBError :=
  ({ db with engine := db.engine.write wb.ops }, none)

/-- An Iterator handle as created by DB.NewIterator: it captures the read
options in use (after default substitution) and the engine state viewed. -/
structure Iterator where
  ro : ReadOptions
  view : Engine
  deriving DecidableEq

/-- DB.NewIterator (db.go): substitutes the default read options on nil. -/
def DB.NewIterator (db : DB) (ro : Option ReadOptions) : Iterator :=
  { ro := db.effROpt ro, view := db.engine }

/-- DB.GetSnapshot (db.go / leveldb_create_snapshot, modelled from the
spec): captures the maximum committed sequence number. -/
def DB.GetSnapshot (db : DB) : Snapshot :=
  ⟨db.engine.lastSeq⟩

/-- Modelled from the spec: the distinct failure kinds of Open. -/
inductive OpenErrorKind where
  | ioErr
  | corruptionErr
  | invalidConfigErr
  | notFoundErr
  | alreadyExistsErr
  deriving DecidableEq

/-- Modelled from the spec: the condition of the store at the given path as
Open observes it. -/
structure StoreState where
  dirAccessible : Bool
  staleLock : Bool
  storeExists : Bool
  metadataReadable : Bool
  comparatorMatches : Bool
  deriving DecidableEq

/-- Modelled from the spec: `leveldb_open`'s failure classification (the
engine's open procedure lives in the external C library).  IOError for an
inaccessible directory or stale lock; NotFoundError when the store is
missing and createIfMissing is false; AlreadyExistsError when the store
exists and errorIfExists is true; CorruptionError when persisted metadata is
unreadable; InvalidConfigError when the configuration conflicts with the
persisted format.  The spec fixes no priority among independent causes; the
chain below checks them in the listed order. -/
def engineOpen (st : StoreState) (opt : Options) : Except OpenErrorKind Engine :=
  if !st.dirAccessible || st.staleLock then Except.error OpenErrorKind.ioErr
  else if !st.storeExists && !opt.createIfMissing then Except.error OpenErrorKind.notFoundErr
  else if st.storeExists && opt.errorIfExists then Except.error OpenErrorKind.alreadyExistsErr
  else if st.storeExists && !st.metadataReadable then Except.error OpenErrorKind.corruptionErr
  else if st.storeExists && !st.comparatorMatches then Except.error OpenErrorKind.invalidConfigErr
  else Except.ok { entries := [], lastSeq := 0 }

/-- OpenEx (db.go): substitutes fresh default Options, ReadOptions and
WriteOptions for nil arguments, opens the engine, and stores the default
options in the handle.  An engine failure is passed through as the
returned error. -/
def OpenEx (st : StoreState) (dbname : String) (opt : Option Options)
    (defaultROpt : Option ReadOptions) (defaultWOpt : Option WriteOptions) :
    Except OpenErrorKind DB :=
  match engineOpen st (match opt with | none => NewOptions | some o => o) with
  | Except.error k => Except.error k
  | Except.ok eng =>
    Except.ok
      { engine := eng,
        defaultROpt := match defaultROpt with | none => NewReadOptions | some r => r,
        defaultWOpt := match defaultWOpt with | none => NewWriteOptions | some w => w }

/-- Open (db.go): shorthand for OpenEx dbname opt nil nil. -/
def Open (st : StoreState) (dbname : String) (opt : Option Options) :
    Except OpenErrorKind DB :=
  OpenEx st dbname opt none none

/-- Range is a range of keys in the database (db.go): Start included, Limit
not included. -/
structure Range where
  Start : GoSlice
  Limit : GoSlice
  deriving DecidableEq

/-- DB.GetApproximateSizes (db.go): an empty range list short-circuits to an
empty result; otherwise one size is produced per range, in input order, by
the engine's per-range estimate (the estimate itself lives in the C library
and is modelled from the spec as an abstract oracle). -/
def DB.GetApproximateSizes (db : DB) (sizeOracle : List UInt8 → List UInt8 → Nat)
    (ranges : List Range) : List Nat :=
  if ranges.length = 0 then []
  else ranges.map (fun r => sizeOracle r.Start.bytes r.Limit.bytes)

/-- Unsigned lexicographic byte ordering, the default key comparator. -/
def lexLe : List UInt8 → List UInt8 → Bool
  | [], _ => true
  | _ :: _, [] => false
  | a :: as, b :: bs => if a < b then true else if b < a then false else lexLe as bs

/-- Membership of a key in the inclusive compaction range [lo, hi]; a `none`
bound is open-ended. -/
def inRange (lo hi : Option (List UInt8)) (k : List UInt8) : Bool :=
  (match lo with | none => true | some l => lexLe l k) &&
  (match hi with | none => true | some h => lexLe k h)

/-- Modelled from the spec: compaction of the entry log over [lo, hi] —
deleted and overwritten versions of keys inside the range are discarded (an
entry is discarded when a later entry for the same key exists, or when it is
a tombstone), all other entries are kept in order. -/
def compactEntries (lo hi : Option (List UInt8)) : List Entry → List Entry
  | [] => []
  | x :: rest =>
    if inRange lo hi x.key && (rest.any (fun y => y.key == x.key) || x.kind == Kind.del)
    then compactEntries lo hi rest
    else x :: compactEntries lo hi rest

/-- DB.CompactRange (db.go): a length-0 begin or end slice is passed as a
nil pointer, meaning open-ended; the engine rewrites storage for the covered
range.  The sequence counter is unaffected. -/
def DB.CompactRange (db : DB) (beginKey endKey : GoSlice) : DB :=
  { db with engine :=
      { entries :=
          compactEntries
            (if beginKey.len = 0 then none else some beginKey.bytes)
            (if endKey.len = 0 then none else some endKey.bytes)
            db.engine.entries,
        lastSeq := db.engine.lastSeq } }

/-- A write-path API call, used to quantify over the writes committed after
a snapshot was taken. -/
inductive DBOp where
  | putOp (wo : Option WriteOptions) (key value : GoSlice)
  | delOp (wo : Option WriteOptions) (key : GoSlice)
  | writeOp (wo : Option WriteOptions) (wb : WriteBatch)

/-- Apply one write-path API call to a DB handle. -/
def applyOp (db : DB) : DBOp → DB
  | .putOp wo k v => (db.Put wo k v).1
  | .delOp wo k => (db.Delete wo k).1
  | .writeOp wo wb => (db.Write wo wb).1

/-- Apply a sequence of write-path API calls in order. -/
def applyOps (db : DB) (ops : List DBOp) : DB :=
  ops.foldl applyOp db

/-- One engine state extends another when it appends only entries with
sequence numbers strictly above the older state's last committed one. -/
def Extends (e1 e2 : Engine) : Prop :=
  e1.lastSeq ≤ e2.lastSeq ∧
    ∃ t, e2.entries = e1.entries ++ t ∧ ∀ x ∈ t, e1.lastSeq < x.seq

/-- A freshly opened empty DB handle, used as concrete witness state. -/
def db0 : DB :=
  { engine := { entries := [], lastSeq := 0 },
    defaultROpt := NewReadOptions, defaultWOpt := NewWriteOptions }

/-- The key "a" as a byte slice. -/
def keyA : GoSlice := GoSlice.mk [97]

/-- The value "1". -/
def val1 : GoSlice := GoSlice.mk [49]

/-- The value "2". -/
def val2 : GoSlice := GoSlice.mk [50]

/-- The value "3". -/
def val3 : GoSlice := GoSlice.mk [51]

/-- A store in good condition with existing content, for Open witnesses. -/
def stOk : StoreState :=
  { dirAccessible := true, staleLock := false, storeExists := true,
    metadataReadable := true, comparatorMatches := true }

/-- Database path placeholder for witnesses. -/
def dbPath : String := ""

/-- The documented example batch of batch.go adapted to the spec's test:
Put(a,"1"); Delete(a); Put(a,"2"); Put(a,"3"). -/
def wbC2 : WriteBatch :=
  (((NewWriteBatch.Put keyA val1).Delete keyA).Put keyA val2).Put keyA val3

/-- A DB holding a=1 then a=2, for the compaction witness. -/
def dbC6 : DB :=
  ((db0.Put none keyA val1).1.Put none keyA val2).1

/-- The DB right after writing a=1, where the snapshot is taken. -/
def dbS1 : DB :=
  (db0.Put none keyA val1).1

/-- The DB after the post-snapshot write a=2, reached through the write-path
operation list. -/
def dbS2 : DB :=
  applyOps dbS1 [DBOp.putOp none keyA val2]

/-- A store behind an inaccessible directory. -/
def stBadDir : StoreState :=
  { dirAccessible := false, staleLock := false, storeExists := true,
    metadataReadable := true, comparatorMatches := true }

/-- A missing store in an accessible directory. -/
def stMissing : StoreState :=
  { dirAccessible := true, staleLock := false, storeExists := false,
    metadataReadable := true, comparatorMatches := true }

/-- An existing store with unreadable metadata. -/
def stCorrupt : StoreState :=
  { dirAccessible := true, staleLock := false, storeExists := true,
    metadataReadable := false, comparatorMatches := true }

/-- An existing store persisted under a different comparator. -/
def stMismatch : StoreState :=
  { dirAccessible := true, staleLock := false, storeExists := true,
    metadataReadable := true, comparatorMatches := false }

/-- Options asking Open to fail when the store already exists. -/
def optErrEx : Options :=
  { createIfMissing := true, errorIfExists := true, paranoidChecks := false }

theorem findLastAt_singleton (x : Entry) (k : List UInt8) (s : Nat) :
    findLastAt [x] k s = if x.key = k ∧ x.seq ≤ s then some x else none := rfl

theorem findLastAt_append (es t : List Entry) (k : List UInt8) (s : Nat) :
    findLastAt (es ++ t) k s =
      match findLastAt t k s with
      | some y => some y
      | none => findLastAt es k s := by
  induction es with
  | nil =>
    simp only [List.nil_append]
    cases h : findLastAt t k s <;> simp [findLastAt]
  | cons x rest ih =>
    have hx : findLastAt ((x :: rest) ++ t) k s =
        match findLastAt (rest ++ t) k s with
        | some y => some y
        | none => if x.key = k ∧ x.seq ≤ s then some x else none := rfl
    rw [hx, ih]
    cases h : findLastAt t k s <;> rfl

theorem findLastAt_all (es : List Entry) (k : List UInt8) (s : Nat)
    (h : ∀ x ∈ es, x.seq ≤ s) : findLastAt es k s = findLast es k := by
  induction es with
  | nil => rfl
  | cons x rest ih =>
    have hx : x.seq ≤ s := h x (List.mem_cons_self x rest)
    have hr : findLastAt rest k s = findLast rest k :=
      ih (fun y hy => h y (List.mem_cons_of_mem x hy))
    simp only [findLastAt, findLast, hr]
    cases findLast rest k with
    | some y => rfl
    | none =>
      by_cases hk : x.key = k
      · simp [hk, hx]
      · simp [hk]

theorem findLastAt_none_of_gt (t : List Entry) (k : List UInt8) (s : Nat)
    (h : ∀ x ∈ t, s < x.seq) : findLastAt t k s = none := by
  induction t with
  | nil => rfl
  | cons x rest ih =>
    have hx : s < x.seq := h x (List.mem_cons_self x rest)
    have hr := ih (fun y hy => h y (List.mem_cons_of_mem x hy))
    simp only [findLastAt, hr]
    rw [if_neg]
    rintro ⟨-, hle⟩
    omega

theorem findLast_cons_ne (x : Entry) (es : List Entry) (k : List UInt8) (h : ¬x.key = k) :
    findLast (x :: es) k = findLast es k := by
  simp only [findLast]
  cases findLast es k with
  | some y => rfl
  | none => simp [h]

theorem findLast_eq_none_iff (es : List Entry) (k : List UInt8) :
    findLast es k = none ↔ ∀ x ∈ es, ¬x.key = k := by
  induction es with
  | nil => simp [findLast]
  | cons x rest ih =>
    constructor
    · intro h y hy
      rcases List.mem_cons.mp hy with rfl | hy'
      · simp only [findLast] at h
        cases hr : findLast rest k with
        | some z => rw [hr] at h; exact absurd h (by simp)
        | none =>
          rw [hr] at h
          intro hk
          rw [if_pos hk] at h
          exact absurd h (by simp)
      · simp only [findLast] at h
        cases hr : findLast rest k with
        | some z => rw [hr] at h; exact absurd h (by simp)
        | none => exact (ih.mp hr) y hy'
    · intro hall
      have hrest : findLast rest k = none :=
        ih.mpr (fun y hy => hall y (List.mem_cons_of_mem x hy))
      simp only [findLast, hrest]
      simp [hall x (List.mem_cons_self x rest)]

theorem mem_compactEntries (lo hi : Option (List UInt8)) (es : List Entry) (x : Entry)
    (h : x ∈ compactEntries lo hi es) : x ∈ es := by
  induction es with
  | nil => exact h
  | cons y rest ih =>
    simp only [compactEntries] at h
    by_cases hc : (inRange lo hi y.key
        && (rest.any (fun z => z.key == y.key) || y.kind == Kind.del)) = true
    · rw [if_pos hc] at h
      exact List.mem_cons_of_mem y (ih h)
    · rw [if_neg hc] at h
      rcases List.mem_cons.mp h with rfl | h'
      · exact List.mem_cons_self x rest
      · exact List.mem_cons_of_mem y (ih h')

theorem findLast_compactEntries_none (lo hi : Option (List UInt8)) (es : List Entry)
    (k : List UInt8) (h : findLast es k = none) :
    findLast (compactEntries lo hi es) k = none := by
  rw [findLast_eq_none_iff] at h ⊢
  intro x hx
  exact h x (mem_compactEntries lo hi es x hx)

theorem findLast_compactEntries_of_notInRange (lo hi : Option (List UInt8)) (es : List Entry)
    (k : List UInt8) (h : inRange lo hi k = false) :
    findLast (compactEntries lo hi es) k = findLast es k := by
  induction es with
  | nil => rfl
  | cons x rest ih =>
    by_cases hk : x.key = k
    · have hcond : (inRange lo hi x.key
          && (rest.any (fun z => z.key == x.key) || x.kind == Kind.del)) = false := by
        rw [hk, h]
        rfl
      simp only [compactEntries, hcond, Bool.false_eq_true, if_false]
      simp only [findLast, ih]
    · by_cases hc : (inRange lo hi x.key
          && (rest.any (fun z => z.key == x.key) || x.kind == Kind.del)) = true
      · simp only [compactEntries, if_pos hc]
        rw [ih, findLast_cons_ne x rest k hk]
      · simp only [compactEntries, if_neg hc]
        rw [findLast_cons_ne _ _ _ hk, findLast_cons_ne x rest k hk, ih]

theorem valOf_findLast_compactEntries (lo hi : Option (List UInt8)) (es : List Entry)
    (k : List UInt8) :
    valOf (findLast (compactEntries lo hi es) k) = valOf (findLast es k) := by
  induction es with
  | nil => rfl
  | cons x rest ih =>
    by_cases hk : x.key = k
    · by_cases hir : inRange lo hi k = true
      · by_cases hany : (rest.any fun z => z.key == x.key) = true
        · have hcond : (inRange lo hi x.key
              && ((rest.any fun z => z.key == x.key) || x.kind == Kind.del)) = true := by
            rw [hk] at hany ⊢
            rw [hir, hany]
            rfl
          simp only [compactEntries, if_pos hcond]
          rw [ih]
          rw [hk] at hany
          obtain ⟨z, hz, hzk⟩ := List.any_eq_true.mp hany
          have hzkey : z.key = k := by simpa using hzk
          have hsome : findLast rest k ≠ none := by
            intro hr0
            rw [findLast_eq_none_iff] at hr0
            exact hr0 z hz hzkey
          cases hr : findLast rest k with
          | none => exact absurd hr hsome
          | some y => simp only [findLast, hr]
        · rw [hk] at hany
          have hnone : findLast rest k = none := by
            rw [findLast_eq_none_iff]
            intro z hz hzk
            apply hany
            rw [List.any_eq_true]
            exact ⟨z, hz, by simpa using hzk⟩
          have hcnone : findLast (compactEntries lo hi rest) k = none :=
            findLast_compactEntries_none lo hi rest k hnone
          cases hkind : x.kind with
          | del =>
            have hcond : (inRange lo hi x.key
                && ((rest.any fun z => z.key == x.key) || x.kind == Kind.del)) = true := by
              rw [hk, hkind]
              simp [hir]
            simp only [compactEntries, if_pos hcond]
            rw [ih]
            simp only [findLast, hnone, hcnone, if_pos hk, valOf, hkind]
          | put =>
            have hcond : (inRange lo hi x.key
                && ((rest.any fun z => z.key == x.key) || x.kind == Kind.del)) = false := by
              rw [hk, hkind]
              simp [hir, hany]
            simp only [compactEntries, hcond, Bool.false_eq_true, if_false]
            simp only [findLast, hnone, hcnone, if_pos hk]
      · have hirf : inRange lo hi k = false := Bool.eq_false_iff.mpr hir
        rw [findLast_compactEntries_of_notInRange lo hi (x :: rest) k hirf]
    · by_cases hc : (inRange lo hi x.key
          && (rest.any (fun z => z.key == x.key) || x.kind == Kind.del)) = true
      · simp only [compactEntries, if_pos hc]
        rw [findLast_cons_ne x rest k hk]
        exact ih
      · simp only [compactEntries, if_neg hc]
        rw [findLast_cons_ne _ _ _ hk, findLast_cons_ne x rest k hk]
        exact ih

theorem getAt_put_self (eng : Engine) (k v : List UInt8) :
    (eng.put k v).getAt (eng.put k v).lastSeq k = some v := by
  show valOf (findLastAt (eng.entries ++
    [{ key := k, value := v, seq := eng.lastSeq + 1, kind := .put }]) k (eng.lastSeq + 1)) = _
  rw [findLastAt_append, findLastAt_singleton]
  simp [valOf]

theorem getAt_del_self (eng : Engine) (k : List UInt8) :
    (eng.del k).getAt (eng.del k).lastSeq k = none := by
  show valOf (findLastAt (eng.entries ++
    [{ key := k, value := [], seq := eng.lastSeq + 1, kind := .del }]) k (eng.lastSeq + 1)) = _
  rw [findLastAt_append, findLastAt_singleton]
  simp [valOf]

theorem getAt_put_other (eng : Engine) (k0 v0 k : List UInt8) (hWF : eng.WF)
    (hk : ¬k0 = k) :
    (eng.put k0 v0).getAt (eng.put k0 v0).lastSeq k = eng.getAt eng.lastSeq k := by
  show valOf (findLastAt (eng.entries ++
    [{ key := k0, value := v0, seq := eng.lastSeq + 1, kind := .put }]) k (eng.lastSeq + 1)) = _
  rw [findLastAt_append, findLastAt_singleton, if_neg (by rintro ⟨h0, -⟩; exact hk h0)]
  show valOf (findLastAt eng.entries k (eng.lastSeq + 1)) = _
  rw [findLastAt_all eng.entries k (eng.lastSeq + 1) (fun x hx => Nat.le_succ_of_le (hWF x hx)),
    Engine.getAt, findLastAt_all eng.entries k eng.lastSeq hWF]

theorem getAt_del_other (eng : Engine) (k0 k : List UInt8) (hWF : eng.WF)
    (hk : ¬k0 = k) :
    (eng.del k0).getAt (eng.del k0).lastSeq k = eng.getAt eng.lastSeq k := by
  show valOf (findLastAt (eng.entries ++
    [{ key := k0, value := [], seq := eng.lastSeq + 1, kind := .del }]) k (eng.lastSeq + 1)) = _
  rw [findLastAt_append, findLastAt_singleton, if_neg (by rintro ⟨h0, -⟩; exact hk h0)]
  show valOf (findLastAt eng.entries k (eng.lastSeq + 1)) = _
  rw [findLastAt_all eng.entries k (eng.lastSeq + 1) (fun x hx => Nat.le_succ_of_le (hWF x hx)),
    Engine.getAt, findLastAt_all eng.entries k eng.lastSeq hWF]

theorem WF_put (eng : Engine) (k v : List UInt8) (h : eng.WF) : (eng.put k v).WF := by
  intro x hx
  rcases List.mem_append.mp hx with hx' | hx'
  · exact Nat.le_succ_of_le (h x hx')
  · rcases List.mem_singleton.mp hx' with rfl
    exact Nat.le_refl _

theorem WF_del (eng : Engine) (k : List UInt8) (h : eng.WF) : (eng.del k).WF := by
  intro x hx
  rcases List.mem_append.mp hx with hx' | hx'
  · exact Nat.le_succ_of_le (h x hx')
  · rcases List.mem_singleton.mp hx' with rfl
    exact Nat.le_refl _

theorem WF_applyBatchOp (eng : Engine) (op : BatchOp) (h : eng.WF) :
    (applyBatchOp eng op).WF := by
  cases op with
  | put k v => exact WF_put eng k v h
  | del k => exact WF_del eng k h

theorem WF_write (ops : List BatchOp) (eng : Engine) (h : eng.WF) : (eng.write ops).WF := by
  induction ops generalizing eng with
  | nil => exact h
  | cons op ops ih => exact ih (applyBatchOp eng op) (WF_applyBatchOp eng op h)

theorem getAt_applyBatchOp (eng : Engine) (op : BatchOp) (k : List UInt8) (hWF : eng.WF) :
    (applyBatchOp eng op).getAt (applyBatchOp eng op).lastSeq k =
      if op.key = k then op.result else eng.getAt eng.lastSeq k := by
  cases op with
  | put k0 v0 =>
    show (eng.put k0 v0).getAt (eng.put k0 v0).lastSeq k = _
    by_cases hk : k0 = k
    · subst hk
      rw [getAt_put_self]
      simp [BatchOp.key, BatchOp.result]
    · rw [getAt_put_other eng k0 v0 k hWF hk]
      simp [BatchOp.key, hk]
  | del k0 =>
    show (eng.del k0).getAt (eng.del k0).lastSeq k = _
    by_cases hk : k0 = k
    · subst hk
      rw [getAt_del_self]
      simp [BatchOp.key, BatchOp.result]
    · rw [getAt_del_other eng k0 k hWF hk]
      simp [BatchOp.key, hk]

theorem getAt_write (ops : List BatchOp) (eng : Engine) (k : List UInt8) (hWF : eng.WF) :
    (eng.write ops).getAt (eng.write ops).lastSeq k =
      match lastOpFor k ops with
      | some op => op.result
      | none => eng.getAt eng.lastSeq k := by
  induction ops generalizing eng with
  | nil => rfl
  | cons op ops ih =>
    have h1 : eng.write (op :: ops) = (applyBatchOp eng op).write ops := rfl
    rw [h1, ih (applyBatchOp eng op) (WF_applyBatchOp eng op hWF)]
    cases hl : lastOpFor k ops with
    | some o => simp only [lastOpFor, hl]
    | none =>
      simp only [lastOpFor, hl]
      rw [getAt_applyBatchOp eng op k hWF]
      by_cases hk : op.key = k
      · simp [hk]
      · simp [hk]

theorem extendsRefl (e : Engine) : Extends e e :=
  ⟨Nat.le_refl _, [], by simp, fun x hx => absurd hx (List.not_mem_nil x)⟩

theorem extendsTrans {e1 e2 e3 : Engine} (h12 : Extends e1 e2) (h23 : Extends e2 e3) :
    Extends e1 e3 := by
  obtain ⟨hle12, t1, ht1, hs1⟩ := h12
  obtain ⟨hle23, t2, ht2, hs2⟩ := h23
  refine ⟨Nat.le_trans hle12 hle23, t1 ++ t2, ?_, ?_⟩
  · rw [ht2, ht1, List.append_assoc]
  · intro x hx
    rcases List.mem_append.mp hx with h | h
    · exact hs1 x h
    · exact Nat.lt_of_le_of_lt hle12 (hs2 x h)

theorem extendsPut (eng : Engine) (k v : List UInt8) : Extends eng (eng.put k v) := by
  refine ⟨Nat.le_succ _, [{ key := k, value := v, seq := eng.lastSeq + 1, kind := .put }],
    rfl, ?_⟩
  intro x hx
  rcases List.mem_singleton.mp hx with rfl
  exact Nat.lt_succ_self _

theorem extendsDel (eng : Engine) (k : List UInt8) : Extends eng (eng.del k) := by
  refine ⟨Nat.le_succ _, [{ key := k, value := [], seq := eng.lastSeq + 1, kind := .del }],
    rfl, ?_⟩
  intro x hx
  rcases List.mem_singleton.mp hx with rfl
  exact Nat.lt_succ_self _

theorem extendsApplyBatchOp (eng : Engine) (op : BatchOp) : Extends eng (applyBatchOp eng op) := by
  cases op with
  | put k v => exact extendsPut eng k v
  | del k => exact extendsDel eng k

theorem extendsWrite (ops : List BatchOp) (eng : Engine) : Extends eng (eng.write ops) := by
  induction ops generalizing eng with
  | nil => exact extendsRefl eng
  | cons op ops ih =>
    exact extendsTrans (extendsApplyBatchOp eng op) (ih (applyBatchOp eng op))

theorem extendsApplyOp (db : DB) (op : DBOp) : Extends db.engine (applyOp db op).engine := by
  cases op with
  | putOp wo k v => exact extendsPut db.engine k.bytes v.bytes
  | delOp wo k => exact extendsDel db.engine k.bytes
  | writeOp wo wb => exact extendsWrite wb.ops db.engine

theorem extendsApplyOps (ops : List DBOp) (db : DB) :
    Extends db.engine (applyOps db ops).engine := by
  induction ops generalizing db with
  | nil => exact extendsRefl db.engine
  | cons op ops ih =>
    exact extendsTrans (extendsApplyOp db op) (ih (applyOp db op))

theorem getAt_of_extends {e1 e2 : Engine} (h : Extends e1 e2) (k : List UInt8) (s : Nat)
    (hs : s ≤ e1.lastSeq) : e2.getAt s k = e1.getAt s k := by
  obtain ⟨-, t, ht, hgt⟩ := h
  show valOf (findLastAt e2.entries k s) = valOf (findLastAt e1.entries k s)
  rw [ht, findLastAt_append,
    findLastAt_none_of_gt t k s (fun x hx => Nat.lt_of_le_of_lt hs (hgt x hx))]

/-- C1: For every key and value, including zero-length byte sequences,
DB.Put(wo, k, v) followed by DB.Get(ro, k) with no intervening writes (and
with read options not bound to an older snapshot) returns a value equal to
v, Get succeeds, and Put itself returns a nil error. -/
theorem C1_put_get_roundtrip
    (db : DB) (wo : Option WriteOptions) (ro : Option ReadOptions) (key value : GoSlice)
    (hro : (db.effROpt ro).snapshot = none) :
    (db.Put wo key value).1.Get ro key = Except.ok value.bytes
      ∧ (db.Put wo key value).2 = none := by
  constructor
  · unfold DB.Get
    have heff : ((db.Put wo key value).1).effROpt ro = db.effROpt ro := by
      cases ro <;> rfl
    have hb : readBound (db.Put wo key value).1 (((db.Put wo key value).1).effROpt ro)
        = ((db.Put wo key value).1).engine.lastSeq := by
      rw [heff]
      unfold readBound
      rw [hro]
    rw [hb]
    have hge : ((db.Put wo key value).1).engine = db.engine.put key.bytes value.bytes := rfl
    rw [hge, getAt_put_self]
  · rfl

theorem C1_put_get_roundtrip_witness :
    (db0.Put none keyA val1).1.Get none keyA = Except.ok [49]
      ∧ (db0.Put none keyA val1).2 = none :=
  C1_put_get_roundtrip db0 none none keyA val1 rfl

/-- C2: Committing a WriteBatch via DB.Write applies its entries in append
order as one unit: the read result for any key afterwards is decided by the
last appended operation touching that key (its value for a Put, NotFound for
a Delete), and keys the batch does not touch read as before.  The witness
checks the documented example [Put(a,1), Delete(a), Put(a,2), Put(a,3)]
then Get(a) = "3". -/
theorem C2_write_batch_last_wins
    (db : DB) (wo : Option WriteOptions) (wb : WriteBatch) (ro : Option ReadOptions)
    (key : GoSlice) (hWF : db.engine.WF) (hro : (db.effROpt ro).snapshot = none) :
    (db.Write wo wb).1.Get ro key =
      match lastOpFor key.bytes wb.ops with
      | some op =>
        match op.result with
        | some v => Except.ok v
        | none => Except.error DBError.notFound
      | none => db.Get ro key := by
  unfold DB.Get
  have heff : ((db.Write wo wb).1).effROpt ro = db.effROpt ro := by cases ro <;> rfl
  have hb1 : readBound (db.Write wo wb).1 (((db.Write wo wb).1).effROpt ro)
      = ((db.Write wo wb).1).engine.lastSeq := by
    rw [heff]
    unfold readBound
    rw [hro]
  have hb2 : readBound db (db.effROpt ro) = db.engine.lastSeq := by
    unfold readBound
    rw [hro]
  rw [hb1, hb2]
  have hge : ((db.Write wo wb).1).engine = db.engine.write wb.ops := rfl
  rw [hge, getAt_write wb.ops db.engine key.bytes hWF]
  cases lastOpFor key.bytes wb.ops with
  | some op =>
    cases op with
    | put k0 v0 => rfl
    | del k0 => rfl
  | none => rfl

theorem C2_write_batch_last_wins_witness :
    (db0.Write none wbC2).1.Get none keyA = Except.ok [51] := by
  have h := C2_write_batch_last_wins db0 none wbC2 none keyA
    (fun x hx => absurd hx (List.not_mem_nil x)) rfl
  rw [h]
  rfl

/-- C3: DB.Delete(wo, k) followed by DB.Get(ro, k) with no intervening
writes (read options not bound to an older snapshot) returns ErrNotFound,
Delete always returns a nil error, and in particular deleting a key absent
from the database returns a nil error. -/
theorem C3_delete_get_notFound
    (db : DB) (wo : Option WriteOptions) (ro : Option ReadOptions) (key : GoSlice)
    (hro : (db.effROpt ro).snapshot = none) :
    (db.Delete wo key).1.Get ro key = Except.error DBError.notFound
      ∧ (db.Delete wo key).2 = none
      ∧ (db.engine.getAt db.engine.lastSeq key.bytes = none →
          (db.Delete wo key).2 = none) := by
  refine ⟨?_, rfl, fun _ => rfl⟩
  unfold DB.Get
  have heff : ((db.Delete wo key).1).effROpt ro = db.effROpt ro := by cases ro <;> rfl
  have hb : readBound (db.Delete wo key).1 (((db.Delete wo key).1).effROpt ro)
      = ((db.Delete wo key).1).engine.lastSeq := by
    rw [heff]
    unfold readBound
    rw [hro]
  rw [hb]
  have hge : ((db.Delete wo key).1).engine = db.engine.del key.bytes := rfl
  rw [hge, getAt_del_self]

theorem C3_delete_get_notFound_witness :
    (db0.Delete none keyA).1.Get none keyA = Except.error DBError.notFound
      ∧ (db0.Delete none keyA).2 = none := by
  have h := C3_delete_get_notFound db0 none none keyA rfl
  exact ⟨h.1, h.2.2 rfl⟩

/-- C4: A Get bound (via ReadOptions.SetSnapshot) to a snapshot S taken from
a DB observes exactly the entries committed with sequence number at most S's
sequence: it is unaffected by any list of writes committed after S was
created, and on the state S was taken from it agrees with an unbound Get.
Concretely, after writing a=1, taking S, then writing a=2, the Get bound to
S returns "1" while the unbound Get returns "2". -/
theorem C4_snapshot_isolation
    (db : DB) (ops : List DBOp) (ro0 : ReadOptions) (key : GoSlice) :
    ((applyOps db ops).Get (some (ro0.SetSnapshot (some db.GetSnapshot))) key
        = db.Get (some (ro0.SetSnapshot (some db.GetSnapshot))) key)
      ∧ (db.Get (some (ro0.SetSnapshot (some db.GetSnapshot))) key
          = db.Get (some (ro0.SetSnapshot none)) key)
      ∧ dbS2.Get (some (NewReadOptions.SetSnapshot (some dbS1.GetSnapshot))) keyA
          = Except.ok val1.bytes
      ∧ dbS2.Get none keyA = Except.ok val2.bytes := by
  refine ⟨?_, rfl, rfl, rfl⟩
  unfold DB.Get
  have hb1 : readBound (applyOps db ops)
      ((applyOps db ops).effROpt (some (ro0.SetSnapshot (some db.GetSnapshot))))
      = db.engine.lastSeq := rfl
  have hb2 : readBound db (db.effROpt (some (ro0.SetSnapshot (some db.GetSnapshot))))
      = db.engine.lastSeq := rfl
  rw [hb1, hb2,
    getAt_of_extends (extendsApplyOps ops db) key.bytes db.engine.lastSeq (Nat.le_refl _)]

/-- C5: Open fails with distinct error kinds according to the failure cause:
IOError for an inaccessible directory or a stale lock; NotFoundError when
the store is missing and createIfMissing is false; AlreadyExistsError when
the store exists and errorIfExists is true; CorruptionError when the
persisted metadata is unreadable; InvalidConfigError when the configuration
conflicts with the persisted format; and the five kinds are pairwise
distinct. -/
theorem C5_open_error_kinds (st : StoreState) (nm : String) (o : Options) :
    ((st.dirAccessible = false ∨ st.staleLock = true) →
        Open st nm (some o) = Except.error OpenErrorKind.ioErr)
      ∧ (st.dirAccessible = true → st.staleLock = false → st.storeExists = false →
          o.createIfMissing = false →
          Open st nm (some o) = Except.error OpenErrorKind.notFoundErr)
      ∧ (st.dirAccessible = true → st.staleLock = false → st.storeExists = true →
          o.errorIfExists = true →
          Open st nm (some o) = Except.error OpenErrorKind.alreadyExistsErr)
      ∧ (st.dirAccessible = true → st.staleLock = false → st.storeExists = true →
          o.errorIfExists = false → st.metadataReadable = false →
          Open st nm (some o) = Except.error OpenErrorKind.corruptionErr)
      ∧ (st.dirAccessible = true → st.staleLock = false → st.storeExists = true →
          o.errorIfExists = false → st.metadataReadable = true →
          st.comparatorMatches = false →
          Open st nm (some o) = Except.error OpenErrorKind.invalidConfigErr)
      ∧ [OpenErrorKind.ioErr, OpenErrorKind.corruptionErr, OpenErrorKind.invalidConfigErr,
          OpenErrorKind.notFoundErr, OpenErrorKind.alreadyExistsErr].Nodup := by
  refine ⟨?_, ?_, ?_, ?_, ?_, by decide⟩
  · rintro (h | h) <;> simp [Open, OpenEx, engineOpen, h]
  · intro h1 h2 h3 h4
    simp [Open, OpenEx, engineOpen, h1, h2, h3, h4]
  · intro h1 h2 h3 h4
    simp [Open, OpenEx, engineOpen, h1, h2, h3, h4]
  · intro h1 h2 h3 h4 h5
    simp [Open, OpenEx, engineOpen, h1, h2, h3, h4, h5]
  · intro h1 h2 h3 h4 h5 h6
    simp [Open, OpenEx, engineOpen, h1, h2, h3, h4, h5, h6]

theorem C5_open_error_kinds_witness :
    Open stBadDir dbPath (some NewOptions) = Except.error OpenErrorKind.ioErr
      ∧ Open stMissing dbPath (some NewOptions) = Except.error OpenErrorKind.notFoundErr
      ∧ Open stOk dbPath (some optErrEx) = Except.error OpenErrorKind.alreadyExistsErr
      ∧ Open stCorrupt dbPath (some NewOptions) = Except.error OpenErrorKind.corruptionErr
      ∧ Open stMismatch dbPath (some NewOptions)
          = Except.error OpenErrorKind.invalidConfigErr := by
  refine ⟨?_, ?_, ?_, ?_, ?_⟩
  · exact (C5_open_error_kinds stBadDir dbPath NewOptions).1 (Or.inl rfl)
  · exact (C5_open_error_kinds stMissing dbPath NewOptions).2.1 rfl rfl rfl rfl
  · exact (C5_open_error_kinds stOk dbPath optErrEx).2.2.1 rfl rfl rfl rfl
  · exact (C5_open_error_kinds stCorrupt dbPath NewOptions).2.2.2.1 rfl rfl rfl rfl rfl
  · exact (C5_open_error_kinds stMismatch dbPath NewOptions).2.2.2.2.1 rfl rfl rfl rfl rfl rfl

/-- C6: CompactRange never changes the logical content of the database: for
every key, the result of a Get (read options not bound to a snapshot) before
and after a CompactRange call with any begin/end arguments — including
length-0 (nil, open-ended) bounds — is identical. -/
theorem C6_compactRange_preserves_get
    (db : DB) (beginKey endKey : GoSlice) (ro : Option ReadOptions) (key : GoSlice)
    (hWF : db.engine.WF) (hro : (db.effROpt ro).snapshot = none) :
    (db.CompactRange beginKey endKey).Get ro key = db.Get ro key := by
  unfold DB.Get
  have heff : (db.CompactRange beginKey endKey).effROpt ro = db.effROpt ro := by
    cases ro <;> rfl
  have hb1 : readBound (db.CompactRange beginKey endKey)
      ((db.CompactRange beginKey endKey).effROpt ro) = db.engine.lastSeq := by
    rw [heff]
    unfold readBound
    rw [hro]
    rfl
  have hb2 : readBound db (db.effROpt ro) = db.engine.lastSeq := by
    unfold readBound
    rw [hro]
  rw [hb1, hb2]
  have hget : (db.CompactRange beginKey endKey).engine.getAt db.engine.lastSeq key.bytes
      = db.engine.getAt db.engine.lastSeq key.bytes := by
    show valOf (findLastAt (compactEntries _ _ db.engine.entries) key.bytes db.engine.lastSeq)
      = valOf (findLastAt db.engine.entries key.bytes db.engine.lastSeq)
    rw [findLastAt_all _ _ _ (fun x hx => hWF x (mem_compactEntries _ _ _ x hx)),
      findLastAt_all _ _ _ hWF]
    exact valOf_findLast_compactEntries _ _ _ _
  rw [hget]

theorem C6_compactRange_preserves_get_witness :
    (dbC6.CompactRange GoSlice.nil GoSlice.nil).Get none keyA = dbC6.Get none keyA
      ∧ dbC6.Get none keyA = Except.ok [50] := by
  constructor
  · exact C6_compactRange_preserves_get dbC6 GoSlice.nil GoSlice.nil none keyA
      (by show ∀ x ∈ dbC6.engine.entries, x.seq ≤ dbC6.engine.lastSeq; decide) rfl
  · rfl

/-- C8: DB.GetApproximateSizes on an empty range list returns an empty
result (and cannot signal an error — the function has no error output); on
any range list it returns exactly one size per range, in input order, each
produced by the engine's per-range estimate. -/
theorem C8_getApproximateSizes_shape
    (db : DB) (sizeOracle : List UInt8 → List UInt8 → Nat) (ranges : List Range) :
    db.GetApproximateSizes sizeOracle [] = []
      ∧ (db.GetApproximateSizes sizeOracle ranges).length = ranges.length
      ∧ ∀ i : Nat, (db.GetApproximateSizes sizeOracle ranges)[i]?
          = (ranges[i]?).map (fun r => sizeOracle r.Start.bytes r.Limit.bytes) := by
  refine ⟨rfl, ?_, ?_⟩
  · unfold DB.GetApproximateSizes
    by_cases h : ranges.length = 0
    · rw [if_pos h, h]
      rfl
    · rw [if_neg h, List.length_map]
  · intro i
    unfold DB.GetApproximateSizes
    by_cases h : ranges.length = 0
    · rw [if_pos h, List.length_eq_zero.mp h]
      rfl
    · rw [if_neg h]
      exact List.getElem?_map _ _ _

/-- C9: Open(dbname, opt) is definitionally OpenEx(dbname, opt, nil, nil);
OpenEx substitutes freshly created default Options, ReadOptions and
WriteOptions for nil arguments; and Put/Get/Delete/Write/NewIterator each
behave with a nil options argument exactly as with the DB's stored default
options passed explicitly. -/
theorem C9_open_defaults
    (st : StoreState) (nm : String) (opt : Option Options)
    (roD : Option ReadOptions) (woD : Option WriteOptions)
    (db : DB) (key value : GoSlice) (wb : WriteBatch) :
    Open st nm opt = OpenEx st nm opt none none
      ∧ OpenEx st nm none roD woD = OpenEx st nm (some NewOptions) roD woD
      ∧ (OpenEx st nm opt none none = Except.ok db →
          db.defaultROpt = NewReadOptions ∧ db.defaultWOpt = NewWriteOptions)
      ∧ db.effWOpt none = db.defaultWOpt
      ∧ db.effROpt none = db.defaultROpt
      ∧ db.Put none key value = db.Put (some db.defaultWOpt) key value
      ∧ db.Get none key = db.Get (some db.defaultROpt) key
      ∧ db.Delete none key = db.Delete (some db.defaultWOpt) key
      ∧ db.Write none wb = db.Write (some db.defaultWOpt) wb
      ∧ db.NewIterator none = db.NewIterator (some db.defaultROpt) := by
  refine ⟨rfl, rfl, ?_, rfl, rfl, rfl, rfl, rfl, rfl, rfl⟩
  intro h
  unfold OpenEx at h
  revert h
  cases hE : engineOpen st (match opt with | none => NewOptions | some o => o) with
  | error k =>
    intro h
    exact absurd h (by simp)
  | ok eng =>
    intro h
    have hinj := Except.ok.inj h
    constructor
    · rw [← hinj]
    · rw [← hinj]

theorem C9_open_defaults_witness :
    db0.defaultROpt = NewReadOptions ∧ db0.defaultWOpt = NewWriteOptions :=
  (C9_open_defaults stOk dbPath none none none db0 keyA val1 NewWriteBatch).2.2.1 rfl

/-- C10: A nil byte slice and a zero-length byte slice are interchangeable
as key or value at the public interface of DB.Put, DB.Get, DB.Delete,
WriteBatch.Put and WriteBatch.Delete (both are marshalled as a length-0
sequence), and a value stored as nil is returned by Get as a zero-length
slice. -/
theorem C10_nil_empty_equivalent
    (db : DB) (wo : Option WriteOptions) (ro : Option ReadOptions)
    (key value : GoSlice) (w : WriteBatch)
    (hro : (db.effROpt ro).snapshot = none) :
    db.Put wo GoSlice.nil value = db.Put wo (GoSlice.mk []) value
      ∧ db.Put wo key GoSlice.nil = db.Put wo key (GoSlice.mk [])
      ∧ db.Get ro GoSlice.nil = db.Get ro (GoSlice.mk [])
      ∧ db.Delete wo GoSlice.nil = db.Delete wo (GoSlice.mk [])
      ∧ w.Put GoSlice.nil value = w.Put (GoSlice.mk []) value
      ∧ w.Put key GoSlice.nil = w.Put key (GoSlice.mk [])
      ∧ w.Delete GoSlice.nil = w.Delete (GoSlice.mk [])
      ∧ (db.Put wo key GoSlice.nil).1.Get ro key = Except.ok [] := by
  refine ⟨rfl, rfl, rfl, rfl, rfl, rfl, rfl, ?_⟩
  unfold DB.Get
  have heff : ((db.Put wo key GoSlice.nil).1).effROpt ro = db.effROpt ro := by
    cases ro <;> rfl
  have hb : readBound (db.Put wo key GoSlice.nil).1
      (((db.Put wo key GoSlice.nil).1).effROpt ro)
      = ((db.Put wo key GoSlice.nil).1).engine.lastSeq := by
    rw [heff]
    unfold readBound
    rw [hro]
  rw [hb]
  have hge : ((db.Put wo key GoSlice.nil).1).engine = db.engine.put key.bytes [] := rfl
  rw [hge, getAt_put_self]

theorem C10_nil_empty_equivalent_witness :
    (db0.Put none keyA GoSlice.nil).1.Get none keyA = Except.ok []
      ∧ db0.Get none GoSlice.nil = db0.Get none (GoSlice.mk []) := by
  have h := C10_nil_empty_equivalent db0 none none keyA val1 NewWriteBatch rfl
  exact ⟨h.2.2.2.2.2.2.2, h.2.2.1⟩

end GoLevelDB
